import Mathlib

/-!
Verification development for the abTEM multislice / potential-projection core.

Machine arithmetic (numpy float32/float64, complex64) is modelled exactly over
`ℚ` resp. pairs of rationals; numpy integer arrays are modelled over `ℤ`/`ℕ`.
2-D arrays are modelled as functions `ℕ → ℕ → ℚ` (only indices below the grid
shape are ever written).  Raised Python exceptions are modelled with `Option`
or `Except`.
-/

namespace AbTEM

/-! ## `superpose_deltas` (src/abtem/core/integrals/infinite.py)

A point position is a pair of (already sampling-scaled) fractional grid
coordinates `(r, c)`.  `rounded = floor(positions)`, `x`/`y` are the fractional
parts, and the four bilinear deposits go to the rows
`[rows % shape0, (rows+1) % shape0] * 2` and columns
`[cols % shape1] * 2 + [(cols+1) % shape1] * 2` with values
`[1 + xy - y - x, x - xy, y - xy, xy]`, accumulated by `np.add.at`. -/

structure Point where
  r : ℚ
  c : ℚ
deriving DecidableEq, Repr

/-- `z % s` as numpy computes it for an int32 row index and a positive shape:
the Euclidean (always non-negative) remainder, returned as an array index. -/
def wrapIndex (s : ℕ) (z : ℤ) : ℕ := (z % (s : ℤ)).toNat

/-- The four `(row, col, value)` deposits of one point, in the order the source
builds the index/value arrays `i`, `j`, `v`. -/
def deposits (s0 s1 : ℕ) (p : Point) : List (ℕ × ℕ × ℚ) :=
  let row : ℤ := p.r.floor
  let col : ℤ := p.c.floor
  let x : ℚ := p.r - row
  let y : ℚ := p.c - col
  let xy : ℚ := x * y
  [ (wrapIndex s0 row, wrapIndex s1 col, 1 + xy - y - x),
    (wrapIndex s0 (row + 1), wrapIndex s1 col, x - xy),
    (wrapIndex s0 row, wrapIndex s1 (col + 1), y - xy),
    (wrapIndex s0 (row + 1), wrapIndex s1 (col + 1), xy) ]

/-- One accumulation step of `np.add.at`: add value `d.2.2` at cell
`(d.1, d.2.1)`. -/
def addAt (a : ℕ → ℕ → ℚ) (d : ℕ × ℕ × ℚ) : ℕ → ℕ → ℚ :=
  fun i j => if i = d.1 ∧ j = d.2.1 then a i j + d.2.2 else a i j

/-- `v = v * weights[None]`: a per-point weight scales that point's four
deposit values. -/
def scaleDeposit (w : ℚ) (d : ℕ × ℕ × ℚ) : ℕ × ℕ × ℚ := (d.1, d.2.1, w * d.2.2)

/-- `superpose_deltas` (the `slice_index is None` path): scatter-add the
bilinear deposits of every point into the caller's array and return the
updated array. -/
def superpose_deltas (s0 s1 : ℕ) (positions : List Point) (weights : Option (List ℚ))
    (array : ℕ → ℕ → ℚ) : ℕ → ℕ → ℚ :=
  match weights with
  | none => (positions.flatMap (deposits s0 s1)).foldl addAt array
  | some ws => ((positions.zip ws).flatMap
      (fun pw => (deposits s0 s1 pw.1).map (scaleDeposit pw.2))).foldl addAt array

/-- Total value a deposit list contributes to cell `(i, j)`. -/
def weightAt (ds : List (ℕ × ℕ × ℚ)) (i j : ℕ) : ℚ :=
  ((ds.filter (fun d => decide (d.1 = i ∧ d.2.1 = j))).map (fun d => d.2.2)).sum

/-- The (wrapped) grid cells a single point deposits into. -/
def targetCells (s0 s1 : ℕ) (p : Point) : List (ℕ × ℕ) :=
  (deposits s0 s1 p).map (fun d => (d.1, d.2.1))

/-! ## `validate_slice_thickness` (src/abtem/slicing.py) -/

/-- `np.ceil` on an exact rational, as an integer: `-floor(-q)`. -/
def npCeil (q : ℚ) : ℤ := -(Rat.floor (-q))

/-- `np.isclose` with its default tolerances `rtol = 1e-5`, `atol = 1e-8`:
`|a - b| <= atol + rtol * |b|`. -/
def isclose (a b : ℚ) : Bool := decide (|a - b| ≤ 1 / 100000000 + 1 / 100000 * |b|)

/-- `validate_slice_thickness`: a scalar step is expanded to a tuple
(`ceil(thickness / step)` equal slices, or `num_slices` copies), an explicit
tuple is taken as given; then the sum is checked against `thickness` and the
length against `num_slices`, raising (`none`) on failure. -/
def validate_slice_thickness (slice_thickness : ℚ ⊕ List ℚ) (thickness : Option ℚ)
    (num_slices : Option ℕ) : Option (List ℚ) :=
  let built : Option (List ℚ) :=
    match slice_thickness, thickness, num_slices with
    | .inl s, some t, _ =>
        let n : ℤ := npCeil (t / s)
        some (List.replicate n.toNat (t / (n : ℚ)))
    | .inl s, none, some m => some (List.replicate m s)
    | .inl _, none, none => none
    | .inr l, _, _ => some l
  match built with
  | none => none
  | some l =>
      match thickness with
      | some t =>
          if isclose l.sum t then
            match num_slices with
            | some m => if l.length = m then some l else none
            | none => some l
          else none
      | none =>
          match num_slices with
          | some m => if l.length = m then some l else none
          | none => some l

/-! ## slicing (src/abtem/slicing.py) -/

/-- An atom as the slicing code sees it: an atomic number and a z-coordinate. -/
structure AtomZ where
  number : ℕ
  z : ℚ
deriving DecidableEq, Repr

/-- `_slice_limits`: the pairs `(cumulative[i], cumulative[i+1])` of cumulative
thicknesses (with a leading 0), one pair per slice. -/
def slice_limits (slice_thickness : List ℚ) : List (ℚ × ℚ) :=
  (List.range slice_thickness.length).map
    (fun i => ((slice_thickness.take i).sum, (slice_thickness.take (i + 1)).sum))

/-- `SlicedAtoms.get_atoms_in_slices` (the windowed variant): select the atoms
with `a - z_padding <= z < b + z_padding` where `a`/`b` are the lower limits of
`first_slice`/`last_slice`, and set the returned cell depth to `b - a`.  An
out-of-range list access into `slice_limits` raises (`none`). -/
def get_atoms_in_slices (slice_thickness : List ℚ) (z_padding : ℚ) (atoms : List AtomZ)
    (first_slice : ℕ) (last_slice : Option ℕ) (atomic_number : Option ℕ) :
    Option (List AtomZ × ℚ) :=
  let last := last_slice.getD first_slice
  let lims := slice_limits slice_thickness
  match lims[first_slice]?, lims[last]? with
  | some la, some lb =>
      let a := la.1
      let b := lb.1
      let in_slice := atoms.filter (fun q =>
        decide (a - z_padding ≤ q.z) && decide (q.z < b + z_padding) &&
        (match atomic_number with
         | none => true
         | some m => decide (q.number = m)))
      some (in_slice, b - a)
  | _, _ => none

/-- `np.cumsum` of the slice thicknesses: the upper bin edges. -/
def cumsum (l : List ℚ) : List ℚ :=
  (List.range l.length).map (fun i => (l.take (i + 1)).sum)

/-- `np.digitize(x, bins)` (default `right=False`, increasing bins): the number
of bin edges that are `≤ x`. -/
def digitize (x : ℚ) (bins : List ℚ) : ℕ :=
  (bins.filter (fun b => decide (b ≤ x))).length

/-- Modelled from the spec: `label_to_index` (from `abtem.core.utils`, which is
not part of the given sources) groups the atom indices by their bin label, one
index list per label `0 .. max_label` ("atoms are assigned once to a depth bin
by their position (binning by cumulative thickness)"); an index whose label
exceeds `max_label` appears in no list. -/
def label_to_index (labels : List ℕ) (max_label : ℕ) : List (List ℕ) :=
  (List.range (max_label + 1)).map
    (fun l => (List.range labels.length).filter (fun i => decide (labels[i]? = some l)))

/-- `SliceIndexedAtoms.__init__`: bin the atoms by digitizing their
z-coordinates against the cumulative slice thicknesses, with
`max_label = num_slices - 1`. -/
def slice_index (slice_thickness : List ℚ) (atoms : List AtomZ) : List (List ℕ) :=
  label_to_index (atoms.map (fun q => digitize q.z (cumsum slice_thickness)))
    (slice_thickness.length - 1)

/-! ## Complex grids and `infinite_potential_projections`
(src/abtem/core/integrals/infinite.py)

`complex64` values are modelled exactly as pairs of rationals; 2-D complex
arrays as functions `ℕ → ℕ → Cq` with pointwise addition.  The Fourier
transforms `fft2`/`ifft2` live in `abtem.core.fft`, which is not part of the
given sources; they are passed as function parameters, and the spec's claim
on them ("exploits linearity") becomes an additivity hypothesis. -/

structure Cq where
  re : ℚ
  im : ℚ
deriving DecidableEq, Repr

def Cq.add (a b : Cq) : Cq := ⟨a.re + b.re, a.im + b.im⟩

def Cq.mul (a b : Cq) : Cq := ⟨a.re * b.re - a.im * b.im, a.re * b.im + a.im * b.re⟩

instance : Add Cq := ⟨Cq.add⟩

instance : Mul Cq := ⟨Cq.mul⟩

instance : Zero Cq := ⟨⟨0, 0⟩⟩

instance : AddCommMonoid Cq where
  add_assoc a b c := by
    show Cq.mk _ _ = Cq.mk _ _
    congr 1 <;> exact add_assoc _ _ _
  zero_add a := by
    cases a
    show Cq.mk _ _ = Cq.mk _ _
    congr 1 <;> exact zero_add _
  add_zero a := by
    cases a
    show Cq.mk _ _ = Cq.mk _ _
    congr 1 <;> exact add_zero _
  add_comm a b := by
    show Cq.mk _ _ = Cq.mk _ _
    congr 1 <;> exact add_comm _ _
  nsmul := nsmulRec

abbrev CGrid := ℕ → ℕ → Cq

abbrev RGrid := ℕ → ℕ → ℚ

/-- Pointwise multiplication (kernel multiply in Fourier space). -/
def gridMul (a b : CGrid) : CGrid := fun i j => a i j * b i j

/-- `.real`. -/
def gridRe (a : CGrid) : RGrid := fun i j => (a i j).re

/-- A real (float32) density map viewed as a complex array. -/
def ofReal (a : RGrid) : CGrid := fun i j => ⟨a i j, 0⟩

/-- Modelled from the spec: `fft2_convolve(array, kernel)` (from
`abtem.core.fft`, not part of the given sources) multiplies the Fourier
transform of the array with the kernel and transforms back ("convolve in the
Fourier domain with the species' precomputed projected scattering-factor
kernel"). -/
def fft2_convolve (fft2 ifft2 : CGrid → CGrid) (array kernel : CGrid) : CGrid :=
  ifft2 (gridMul (fft2 array) kernel)

/-- An atom as the projection code sees it: atomic number and in-plane
position. -/
structure Atom2 where
  number : ℕ
  px : ℚ
  py : ℚ
deriving DecidableEq, Repr

/-- `atoms.positions[:, :2] / sampling`. -/
def scaledPositions (sampling : ℚ × ℚ) (atoms : List Atom2) : List Point :=
  atoms.map (fun q => ⟨q.px / sampling.1, q.py / sampling.2⟩)

def insertSorted (n : ℕ) : List ℕ → List ℕ
  | [] => [n]
  | m :: l => if n ≤ m then n :: m :: l else m :: insertSorted n l

/-- Insertion sort (ascending). -/
def sortNat : List ℕ → List ℕ
  | [] => []
  | n :: l => insertSorted n (sortNat l)

/-- `np.unique(atoms.numbers)`: the distinct atomic numbers in ascending
order. -/
def uniqueNumbers (atoms : List Atom2) : List ℕ :=
  sortNat ((atoms.map (fun q => q.number)).dedup)

/-- One species' Fourier-domain contribution in the multi-species loop:
`fft2(superpose_deltas(positions[mask], temp)) * scattering_factors[number]`. -/
def speciesTerm (fft2 : CGrid → CGrid) (s0 s1 : ℕ) (sampling : ℚ × ℚ)
    (factors : ℕ → CGrid) (atoms : List Atom2) (n : ℕ) : CGrid :=
  gridMul
    (fft2 (ofReal (superpose_deltas s0 s1
      (scaledPositions sampling (atoms.filter (fun q => decide (q.number = n)))) none
      (fun _ _ => 0))))
    (factors n)

/-- `infinite_potential_projections` (the `slice_index is None` path, for one
2-D output): several distinct species accumulate their Fourier-domain terms
and a single inverse transform takes the real part; a single species uses
`fft2_convolve` on its density map directly. -/
def infinite_potential_projections (fft2 ifft2 : CGrid → CGrid) (s0 s1 : ℕ)
    (sampling : ℚ × ℚ) (factors : ℕ → CGrid) (atoms : List Atom2) : RGrid :=
  if atoms.isEmpty then fun _ _ => 0
  else
    let unique := uniqueNumbers atoms
    if 1 < unique.length then
      gridRe (ifft2 (unique.foldl (fun acc n =>
        if (atoms.filter (fun q => decide (q.number = n))).isEmpty then acc
        else acc + speciesTerm fft2 s0 s1 sampling factors atoms n) 0))
    else
      gridRe (fft2_convolve fft2 ifft2
        (ofReal (superpose_deltas s0 s1 (scaledPositions sampling atoms) none
          (fun _ _ => 0)))
        (factors (unique.headD 0)))

/-! ## Multislice fail-fast preconditions
(src/abtem/waves/waves.py `Waves.multislice`, src/abtem/waves.py
`Waves.apply_ctf`) -/

/-- Modelled from the spec: a wave carries a grid (`gpts`) and an energy, each
possibly undefined (the Grid/Accelerator classes are not part of the given
sources).  The wave array is abstracted to a single amplitude. -/
structure WavesM where
  gpts : Option (ℕ × ℕ)
  energy : Option ℚ
  amplitude : ℚ
deriving DecidableEq, Repr

structure PotentialM where
  gpts : Option (ℕ × ℕ)
  slices : List ℚ
deriving DecidableEq, Repr

/-- Modelled from the spec: `Grid.match` adopts a defined value for an
undefined one and raises when two defined grids differ ("grid or energy
mismatch between wave and potential/CTF is fatal"). -/
def grid_match : Option (ℕ × ℕ) → Option (ℕ × ℕ) → Except Unit (Option (ℕ × ℕ))
  | some g1, some g2 => if g1 = g2 then .ok (some g1) else .error ()
  | some g1, none => .ok (some g1)
  | none, g2 => .ok g2

/-- Modelled from the spec: `check_is_defined` raises on an undefined value. -/
def check_is_defined {α : Type} : Option α → Except Unit α
  | some x => .ok x
  | none => .error ()

/-- `Waves.multislice`: match the wave's grid against the potential's, check
the grid and the energy are defined, and only then run the per-slice loop
(abstracted to multiplying the amplitude by each slice's transmission factor).
A precondition failure raises before any slice is processed; the error is
propagated, never caught. -/
def multislice (w : WavesM) (p : PotentialM) : Except Unit WavesM :=
  match grid_match w.gpts p.gpts with
  | .error e => .error e
  | .ok g =>
      match check_is_defined g with
      | .error e => .error e
      | .ok g' =>
          match check_is_defined w.energy with
          | .error e => .error e
          | .ok _ =>
              .ok { gpts := some g', energy := w.energy,
                    amplitude := p.slices.foldl (fun ψ t => ψ * t) w.amplitude }

/-- `Waves.apply_ctf` precondition handling (waves.py): a CTF with no energy
adopts the wave's; then the accelerators are matched with `check_match=True`
(raising on a mismatch of two defined energies) and checked to be defined.
Returns the energy that would be used.  Modelled from the spec for the missing
Accelerator class. -/
def apply_ctf_check (wave_energy ctf_energy : Option ℚ) : Except Unit ℚ :=
  let ctfE := match ctf_energy with
    | none => wave_energy
    | some e => some e
  match wave_energy, ctfE with
  | some e1, some e2 => if e1 = e2 then .ok e1 else .error ()
  | none, some e2 => .ok e2
  | _, none => .error ()

/-! ## `HasArray.get_items` / `HasArray.squeeze` (src/abtem/core/array.py) -/

inductive NpError where
  | runtime
  | index
deriving DecidableEq, Repr

/-- An index item: an integer or a (start, stop) slice. -/
inductive Item where
  | idx (i : ℤ)
  | slc (start stop : Option ℤ)
deriving DecidableEq, Repr

def Item.isIdx : Item → Bool
  | .idx _ => true
  | _ => false

/-- Python index resolution for one axis of size `n`: negative indices wrap;
out of range raises. -/
def resolveIdx (n : ℕ) (i : ℤ) : Option ℕ :=
  let i' := if i < 0 then i + n else i
  if 0 ≤ i' ∧ i' < n then some i'.toNat else none

/-- Python slice-bound resolution for an axis of size `n`: negative bounds
wrap, then the bound is clamped to `[0, n]`. -/
def resolveBound (n : ℕ) (dflt : ℕ) : Option ℤ → ℕ
  | none => dflt
  | some b => (max 0 (min (if b < 0 then b + n else b) n)).toNat

/-- The number of entries a `start:stop` slice selects from an axis of size
`n`. -/
def sliceLen (n : ℕ) (start stop : Option ℤ) : ℕ :=
  resolveBound n n stop - resolveBound n 0 start

/-- numpy basic indexing on the shape: each integer item removes its axis
(raising `IndexError`, i.e. `none`, when out of range), each slice item
resizes it; trailing axes are untouched. -/
def npIndexShape : List ℕ → List Item → Option (List ℕ)
  | shape, [] => some shape
  | [], _ :: _ => none
  | n :: rest, it :: its =>
      match it with
      | .idx i =>
          match resolveIdx n i with
          | some _ => npIndexShape rest its
          | none => none
      | .slc a b => (npIndexShape rest its).map (fun s => sliceLen n a b :: s)

/-- Axis metadata: an Ordinal axis carries per-element labels; every axis
metadata carries the `_squeeze` eligibility flag. -/
inductive AxisM where
  | ordinal (labels : List ℕ) (sq : Bool)
  | plain (sq : Bool)
deriving DecidableEq, Repr, Inhabited

def AxisM.squeezeFlag : AxisM → Bool
  | .ordinal _ s => s
  | .plain s => s

/-- Modelled from the spec: `OrdinalAxis.__getitem__` sub-selects the per-axis
labels by the item ("slicing on an Ordinal axis sub-selects its labels");
non-Ordinal metadata is carried over unchanged. -/
def axisIndex (m : AxisM) (it : Item) : AxisM :=
  match m, it with
  | .ordinal ls s, .slc a b =>
      let lo := resolveBound ls.length 0 a
      let hi := resolveBound ls.length ls.length b
      .ordinal ((ls.drop lo).take (hi - lo)) s
  | .ordinal ls s, .idx i =>
      .ordinal
        (match resolveIdx ls.length i with
         | some k => [ls.getD k 0]
         | none => ls) s
  | m, _ => m

/-- The model of a `HasArray`/`ArrayObject`: the backing array's shape, the
number of base dimensions, and the ensemble axis metadata. -/
structure ArrObj where
  shape : List ℕ
  baseDims : ℕ
  ensAxes : List AxisM
deriving DecidableEq, Repr

def ArrObj.ensemble_shape (o : ArrObj) : List ℕ :=
  o.shape.take (o.shape.length - o.baseDims)

def ArrObj.base_shape (o : ArrObj) : List ℕ :=
  o.shape.drop (o.shape.length - o.baseDims)

/-- Modelled from the spec: `HasAxes._is_base_axis` — the base axes are the
trailing `base_dims` axes of the array ("Base axes are never exposed for
ensemble-level indexing"). -/
def ArrObj.is_base_axis (o : ArrObj) (axes : List ℕ) : Bool :=
  axes.any (fun a => decide (o.shape.length - o.baseDims ≤ a))

/-- `HasArray.get_items`: `keep_dims` turns integer items into length-1
slices; more items than ensemble axes raises `RuntimeError`; integer items
mark their axis for removal and `_is_base_axis(axis_to_remove)` raises
`RuntimeError`; otherwise the array is indexed (numpy raising `IndexError` on
an out-of-range integer) and the kept ensemble axis metadata is carried over,
Ordinal axes sub-selected by their item. -/
def keepDimsItems (keep_dims : Bool) (items0 : List Item) : List Item :=
  if keep_dims
  then items0.map (fun it =>
    match it with
    | .idx i => .slc (some i) (some (i + 1))
    | s => s)
  else items0

def get_items (o : ArrObj) (items0 : List Item) (keep_dims : Bool) :
    Except NpError ArrObj :=
  let items := keepDimsItems keep_dims items0
  if (ArrObj.ensemble_shape o).length < items.length then .error .runtime
  else
    let axis_to_remove := (List.range items.length).filter
      (fun i => ((items[i]?).map Item.isIdx).getD false)
    if o.is_base_axis axis_to_remove then .error .runtime
    else
      let newMeta := (o.ensAxes.zip items).filterMap
          (fun p => if p.2.isIdx then none else some (axisIndex p.1 p.2))
        ++ o.ensAxes.drop items.length
      match npIndexShape o.shape items with
      | none => .error .index
      | some newShape => .ok ⟨newShape, o.baseDims, newMeta⟩

/-- `np.where(cond)[0]`-style: the positions (counted from `n₀`) whose entry
satisfies the condition. -/
def condPositionsFrom (cond : ℕ → α → Bool) : ℕ → List α → List ℕ
  | _, [] => []
  | n, a :: l =>
      if cond n a then n :: condPositionsFrom cond (n + 1) l
      else condPositionsFrom cond (n + 1) l

/-- Keep the entries (positions counted from `n₀`) whose position satisfies
`keep`: the semantics of removing the axes at a set of positions. -/
def posFilterFrom (keep : ℕ → Bool) : ℕ → List α → List α
  | _, [] => []
  | n, a :: l =>
      if keep n then a :: posFilterFrom keep (n + 1) l
      else posFilterFrom keep (n + 1) l

/-- Modelled from the spec: `normalize_axes` (from `abtem.core.utils`, not part
of the given sources) resolves negative axis numbers against the rank. -/
def normalize_axes (axes : List ℤ) (rank : ℕ) : List ℕ :=
  axes.map (fun a => (if a < 0 then a + (rank : ℤ) else a).toNat)

/-- python `l[:-m]`. -/
def pyDropLast (l : List α) (m : ℕ) : List α :=
  if m = 0 then [] else l.take (l.length - m)

/-- `HasArray.squeeze`: the requested axes default to all axes; the squeezed
positions are the ensemble positions of size 1 that were requested (no
metadata eligibility check); those positions are removed from the array's
shape and from the ensemble axis metadata. -/
def squeeze (o : ArrObj) (axis : Option (List ℤ)) : ArrObj :=
  if o.shape.length < (ArrObj.base_shape o).length then o
  else
    let ax : List ℕ := match axis with
      | none => List.range o.shape.length
      | some a => normalize_axes a o.shape.length
    let ensShape := pyDropLast o.shape (ArrObj.base_shape o).length
    let squeezed := condPositionsFrom
      (fun i n => decide (n = 1) && decide (i ∈ ax)) 0 ensShape
    { shape := posFilterFrom (fun i => decide (i ∉ squeezed)) 0 o.shape,
      baseDims := o.baseDims,
      ensAxes := posFilterFrom (fun i => decide (i ∉ squeezed)) 0 o.ensAxes }

/-- `_reduce_ensemble` (waves.py): squeeze exactly the ensemble axes whose
metadata carries the `_squeeze` flag. -/
def reduce_ensemble (o : ArrObj) : ArrObj :=
  squeeze o
    (some ((condPositionsFrom (fun _ m => m.squeezeFlag) 0 o.ensAxes).map (fun n : ℕ => (n : ℤ))))

/-! ## Helper lemmas -/

theorem ratFloor_eq (q : ℚ) : q.floor = ⌊q⌋ := by
  rw [Rat.floor_def', Rat.floor_def]

theorem foldl_addAt (ds : List (ℕ × ℕ × ℚ)) (a : ℕ → ℕ → ℚ) (i j : ℕ) :
    (ds.foldl addAt a) i j = a i j + weightAt ds i j := by
  induction ds generalizing a with
  | nil => simp [weightAt]
  | cons d ds ih =>
      rw [List.foldl_cons, ih]
      unfold weightAt addAt
      rw [List.filter_cons]
      by_cases h : d.1 = i ∧ d.2.1 = j
      · rcases h with ⟨h1, h2⟩
        subst h1
        subst h2
        simp [add_assoc, add_comm, add_left_comm]
      · have h' : ¬(i = d.1 ∧ j = d.2.1) := fun hc => h ⟨hc.1.symm, hc.2.symm⟩
        simp [h, h']

theorem weightAt_nil (i j : ℕ) : weightAt [] i j = 0 := rfl

theorem weightAt_cons (d : ℕ × ℕ × ℚ) (ds : List (ℕ × ℕ × ℚ)) (i j : ℕ) :
    weightAt (d :: ds) i j =
      (if d.1 = i ∧ d.2.1 = j then d.2.2 else 0) + weightAt ds i j := by
  unfold weightAt
  rw [List.filter_cons]
  by_cases h : d.1 = i ∧ d.2.1 = j
  · simp [h]
  · simp [h]

theorem weightAt_zero_of_no_hit (ds : List (ℕ × ℕ × ℚ)) (i j : ℕ)
    (h : ∀ d ∈ ds, ¬(d.1 = i ∧ d.2.1 = j)) : weightAt ds i j = 0 := by
  unfold weightAt
  have : ds.filter (fun d => decide (d.1 = i ∧ d.2.1 = j)) = [] := by
    rw [List.filter_eq_nil_iff]
    intro d hd
    simpa using h d hd
  rw [this]
  simp

theorem wrapIndex_lt (s : ℕ) (hs : 0 < s) (z : ℤ) : wrapIndex s z < s := by
  unfold wrapIndex
  have h1 : z % (s : ℤ) < (s : ℤ) := Int.emod_lt_of_pos z (by exact_mod_cast hs)
  have h2 : 0 ≤ z % (s : ℤ) := Int.emod_nonneg z (by positivity)
  omega

theorem wrapIndex_of_range (s : ℕ) (z : ℤ) (h0 : 0 ≤ z) (h1 : z < (s : ℤ)) :
    wrapIndex s z = z.toNat := by
  unfold wrapIndex
  rw [Int.emod_eq_of_lt h0 h1]

/-- C1.  Scatter-add weight conservation: for every point, the four bilinear
weights `1 + x*y - y - x`, `x - x*y`, `y - x*y`, `x*y` deposited by
`superpose_deltas` sum exactly to 1; and for a point whose fractional parts
are `x = y = 0` (and whose floor lies on the grid) all of the weight lands on
the single cell `(floor(row), floor(col))`. -/
theorem superpose_deltas_weight_conservation (s0 s1 : ℕ) (p : Point) :
    ((deposits s0 s1 p).map (fun d => d.2.2)).sum = 1 ∧
    (((p.r.floor : ℚ) = p.r) → ((p.c.floor : ℚ) = p.c) →
      (0 : ℤ) ≤ p.r.floor → p.r.floor < (s0 : ℤ) →
      (0 : ℤ) ≤ p.c.floor → p.c.floor < (s1 : ℤ) →
      ∀ (a : ℕ → ℕ → ℚ) (i j : ℕ),
        superpose_deltas s0 s1 [p] none a i j =
          if i = p.r.floor.toNat ∧ j = p.c.floor.toNat then a i j + 1 else a i j) := by
  constructor
  · simp only [deposits, List.map_cons, List.map_nil, List.sum_cons, List.sum_nil]
    ring
  · intro hx hy hr0 hr1 hc0 hc1 a i j
    have hx0 : p.r - (p.r.floor : ℚ) = 0 := by rw [hx, sub_self]
    have hy0 : p.c - (p.c.floor : ℚ) = 0 := by rw [hy, sub_self]
    have hwr : wrapIndex s0 p.r.floor = p.r.floor.toNat := wrapIndex_of_range _ _ hr0 hr1
    have hwc : wrapIndex s1 p.c.floor = p.c.floor.toNat := wrapIndex_of_range _ _ hc0 hc1
    have hdep : deposits s0 s1 p =
        [ (p.r.floor.toNat, p.c.floor.toNat, 1),
          (wrapIndex s0 (p.r.floor + 1), p.c.floor.toNat, 0),
          (p.r.floor.toNat, wrapIndex s1 (p.c.floor + 1), 0),
          (wrapIndex s0 (p.r.floor + 1), wrapIndex s1 (p.c.floor + 1), 0) ] := by
      simp only [deposits, hwr, hwc, hx0, hy0]
      norm_num
    show (([p].flatMap (deposits s0 s1)).foldl addAt a) i j = _
    rw [List.flatMap_cons, List.flatMap_nil, List.append_nil, foldl_addAt, hdep]
    rw [weightAt_cons, weightAt_cons, weightAt_cons, weightAt_cons, weightAt_nil]
    simp only [ite_self, add_zero]
    by_cases h : i = p.r.floor.toNat ∧ j = p.c.floor.toNat
    · rcases h with ⟨hi, hj⟩
      subst hi
      subst hj
      simp
    · have h' : ¬(p.r.floor.toNat = i ∧ p.c.floor.toNat = j) := fun hc =>
        h ⟨hc.1.symm, hc.2.symm⟩
      simp [h, h']

/-- C2.  Periodic wraparound: every deposit of `superpose_deltas` targets a
cell whose row/column index is reduced modulo the grid shape (hence in
bounds), and a point with row `shape0 - 1/2` deposits into both row
`shape0 - 1` and row `0`. -/
theorem superpose_deltas_periodic_wraparound (s0 s1 : ℕ) (hs0 : 0 < s0) (hs1 : 0 < s1) :
    (∀ (p : Point), ∀ d ∈ deposits s0 s1 p, d.1 < s0 ∧ d.2.1 < s1) ∧
    (∀ pc : ℚ, ((deposits s0 s1 ⟨(s0 : ℚ) - 1/2, pc⟩).map (fun d => d.1)) =
      [s0 - 1, 0, s0 - 1, 0]) := by
  constructor
  · intro p d hd
    have hcases : d.1 = wrapIndex s0 p.r.floor ∨ d.1 = wrapIndex s0 (p.r.floor + 1) := by
      simp only [deposits, List.mem_cons, List.not_mem_nil, or_false] at hd
      rcases hd with h | h | h | h <;> rw [h] <;> simp
    have hcases2 : d.2.1 = wrapIndex s1 p.c.floor ∨ d.2.1 = wrapIndex s1 (p.c.floor + 1) := by
      simp only [deposits, List.mem_cons, List.not_mem_nil, or_false] at hd
      rcases hd with h | h | h | h <;> rw [h] <;> simp
    constructor
    · rcases hcases with h | h <;> rw [h] <;> exact wrapIndex_lt _ hs0 _
    · rcases hcases2 with h | h <;> rw [h] <;> exact wrapIndex_lt _ hs1 _
  · intro pc
    have hfl : ((s0 : ℚ) - 1/2).floor = (s0 : ℤ) - 1 := by
      rw [ratFloor_eq]
      rw [Int.floor_eq_iff]
      · constructor
        · push_cast
          linarith
        · push_cast
          linarith
    have hw1 : wrapIndex s0 ((s0 : ℤ) - 1) = s0 - 1 := by
      have := wrapIndex_of_range s0 ((s0 : ℤ) - 1) (by omega) (by omega)
      omega
    have hw2 : wrapIndex s0 ((s0 : ℤ) - 1 + 1) = 0 := by
      unfold wrapIndex
      have : (s0 : ℤ) - 1 + 1 = (s0 : ℤ) := by ring
      rw [this, Int.emod_self]
      rfl
    simp only [deposits, hfl, hw1, hw2, List.map_cons, List.map_nil]

/-- C10.  In-place accumulation frame property: `superpose_deltas` returns the
caller's array with exactly the bilinear contributions added — at every cell
the result is the input plus the total deposited weight there, and every cell
that is not among the four wrapped neighbour cells of some input point is
unchanged (for both the unweighted and the weighted call). -/
theorem superpose_deltas_inplace_frame (s0 s1 : ℕ) (ps : List Point)
    (ws : Option (List ℚ)) (a : ℕ → ℕ → ℚ) (i j : ℕ) :
    (superpose_deltas s0 s1 ps none a i j =
        a i j + weightAt (ps.flatMap (deposits s0 s1)) i j) ∧
    ((∀ p ∈ ps, (i, j) ∉ targetCells s0 s1 p) →
        superpose_deltas s0 s1 ps ws a i j = a i j) := by
  constructor
  · show ((ps.flatMap (deposits s0 s1)).foldl addAt a) i j = _
    exact foldl_addAt _ _ _ _
  · intro h
    have hnohit : ∀ (p : Point), p ∈ ps → ∀ d ∈ deposits s0 s1 p, ¬(d.1 = i ∧ d.2.1 = j) := by
      intro p hp d hd hc
      apply h p hp
      unfold targetCells
      rw [List.mem_map]
      exact ⟨d, hd, by rw [hc.1, hc.2]⟩
    match ws with
    | none =>
        show ((ps.flatMap (deposits s0 s1)).foldl addAt a) i j = _
        rw [foldl_addAt, weightAt_zero_of_no_hit, add_zero]
        intro d hd
        rw [List.mem_flatMap] at hd
        rcases hd with ⟨p, hp, hdp⟩
        exact hnohit p hp d hdp
    | some l =>
        show (((ps.zip l).flatMap
          (fun pw => (deposits s0 s1 pw.1).map (scaleDeposit pw.2))).foldl addAt a) i j = _
        rw [foldl_addAt, weightAt_zero_of_no_hit, add_zero]
        intro d hd
        rw [List.mem_flatMap] at hd
        rcases hd with ⟨pw, hpw, hdp⟩
        rw [List.mem_map] at hdp
        rcases hdp with ⟨d0, hd0, hscale⟩
        have hp : pw.1 ∈ ps := (List.of_mem_zip hpw).1
        intro hc
        apply hnohit pw.1 hp d0 hd0
        rw [← hscale] at hc
        exact hc

/-- Witness for C1 at the concrete point `(2, 3)` on a `4 × 5` grid. -/
theorem superpose_deltas_weight_conservation_witness :
    (((2 : ℚ).floor : ℚ) = 2 ∧ ((3 : ℚ).floor : ℚ) = 3 ∧
      (0 : ℤ) ≤ (2 : ℚ).floor ∧ (2 : ℚ).floor < (4 : ℤ) ∧
      (0 : ℤ) ≤ (3 : ℚ).floor ∧ (3 : ℚ).floor < (5 : ℤ)) ∧
    ((deposits 4 5 ⟨2, 3⟩).map (fun d => d.2.2)).sum = 1 ∧
    superpose_deltas 4 5 [⟨2, 3⟩] none (fun _ _ => 0) 2 3 =
      (if 2 = ((2 : ℚ).floor.toNat) ∧ 3 = ((3 : ℚ).floor.toNat)
        then (0 : ℚ) + 1 else 0) := by
  refine ⟨by constructor; · with_unfolding_all decide
             · constructor; · with_unfolding_all decide
               · constructor; · with_unfolding_all decide
                 · constructor; · with_unfolding_all decide
                   · constructor <;> with_unfolding_all decide, ?_, ?_⟩
  · exact (superpose_deltas_weight_conservation 4 5 ⟨2, 3⟩).1
  · exact (superpose_deltas_weight_conservation 4 5 ⟨2, 3⟩).2
      (by with_unfolding_all decide) (by with_unfolding_all decide)
      (by with_unfolding_all decide) (by with_unfolding_all decide)
      (by with_unfolding_all decide) (by with_unfolding_all decide)
      (fun _ _ => 0) 2 3

/-- Witness for C2 on a `4 × 4` grid with the point row `4 - 1/2`. -/
theorem superpose_deltas_periodic_wraparound_witness :
    (0 < 4 ∧ 0 < 4) ∧
    ((deposits 4 4 ⟨(4 : ℚ) - 1/2, (1/2 : ℚ)⟩).map (fun d => d.1)) = [3, 0, 3, 0] := by
  refine ⟨⟨by decide, by decide⟩, ?_⟩
  have h := (superpose_deltas_periodic_wraparound 4 4 (by decide) (by decide)).2 (1/2)
  exact h

/-- Witness for C10: a cell away from the point's neighbourhood is unchanged. -/
theorem superpose_deltas_inplace_frame_witness :
    (∀ p ∈ [(⟨2, 3⟩ : Point)], ((0, 0) : ℕ × ℕ) ∉ targetCells 5 5 p) ∧
    superpose_deltas 5 5 [⟨2, 3⟩] (some [2]) (fun _ _ => 7) 0 0 = 7 := by
  constructor
  · with_unfolding_all decide
  · exact (superpose_deltas_inplace_frame 5 5 [⟨2, 3⟩] (some [2]) (fun _ _ => 7) 0 0).2
      (by with_unfolding_all decide)

theorem npCeil_eq_ceil (q : ℚ) : npCeil q = ⌈q⌉ := by
  unfold npCeil
  rw [ratFloor_eq, Int.floor_neg, neg_neg]

/-- C4.  Slice-thickness invariant: for a positive scalar step and a
non-negative total thickness, `validate_slice_thickness` returns a tuple of
per-slice thicknesses summing exactly to the total; and for an explicit tuple
whose sum is not close to the given total it raises instead of returning. -/
theorem validate_slice_thickness_invariant :
    (∀ s t : ℚ, 0 < s → 0 ≤ t →
      ∃ l, validate_slice_thickness (.inl s) (some t) none = some l ∧ l.sum = t) ∧
    (∀ (ts : List ℚ) (t : ℚ) (ns : Option ℕ), isclose ts.sum t = false →
      validate_slice_thickness (.inr ts) (some t) ns = none) := by
  constructor
  · intro s t hs ht
    have hnc : npCeil (t / s) = ⌈t / s⌉ := npCeil_eq_ceil _
    have hn0 : 0 ≤ npCeil (t / s) := by
      rw [hnc]
      exact Int.ceil_nonneg (div_nonneg ht (le_of_lt hs))
    have hsum : (List.replicate (npCeil (t / s)).toNat (t / ((npCeil (t / s) : ℤ) : ℚ))).sum
        = t := by
      rw [List.sum_replicate, nsmul_eq_mul]
      by_cases hz : npCeil (t / s) = 0
      · have htz : t = 0 := by
          have h1 : ⌈t / s⌉ = 0 := by rw [← hnc, hz]
          have h2 : t / s ≤ 0 := by
            have := Int.ceil_le.mp (le_of_eq h1)
            simpa using this
          have h3 : t / s = 0 := le_antisymm h2 (div_nonneg ht (le_of_lt hs))
          rcases div_eq_zero_iff.mp h3 with h | h
          · exact h
          · exact absurd h (ne_of_gt hs)
        rw [hz, htz]
        simp
      · have hne : ((npCeil (t / s) : ℤ) : ℚ) ≠ 0 := by exact_mod_cast hz
        have hcast : (((npCeil (t / s)).toNat : ℕ) : ℚ) = ((npCeil (t / s) : ℤ) : ℚ) := by
          exact_mod_cast Int.toNat_of_nonneg hn0
        rw [hcast, mul_comm, div_mul_cancel₀ _ hne]
    refine ⟨_, ?_, hsum⟩
    have hclose : isclose
        (List.replicate (npCeil (t / s)).toNat (t / ((npCeil (t / s) : ℤ) : ℚ))).sum t
        = true := by
      rw [hsum]
      unfold isclose
      rw [decide_eq_true_eq, sub_self, abs_zero]
      positivity
    simp only [validate_slice_thickness, hclose, if_true]
  · intro ts t ns h
    simp only [validate_slice_thickness, h]
    rfl

/-- Witness for C4: step 1 with total `5/2` returns three slices of `5/6`;
the tuple `[1]` with total 3 raises. -/
theorem validate_slice_thickness_invariant_witness :
    ((0 : ℚ) < 1 ∧ (0 : ℚ) ≤ 5/2 ∧
      ∃ l, validate_slice_thickness (.inl 1) (some (5/2)) none = some l ∧ l.sum = 5/2) ∧
    (isclose ([(1 : ℚ)]).sum 3 = false ∧
      validate_slice_thickness (.inr [(1 : ℚ)]) (some 3) none = none) :=
  ⟨⟨by with_unfolding_all decide, by with_unfolding_all decide,
    validate_slice_thickness_invariant.1 1 (5/2)
      (by with_unfolding_all decide) (by with_unfolding_all decide)⟩,
   ⟨by with_unfolding_all decide,
    validate_slice_thickness_invariant.2 [1] 3 none (by with_unfolding_all decide)⟩⟩

/-- C5.  Fail-fast precondition check: a wave/potential pair with undefined or
mismatched grids, or an undefined wave energy, makes `multislice` raise before
any slice is processed (the error is returned, no partial wave state exists);
likewise `apply_ctf` raises on undefined or mismatched energies. -/
theorem multislice_fail_fast :
    (∀ (w : WavesM) (p : PotentialM),
      ((w.gpts = none ∧ p.gpts = none) ∨ w.energy = none ∨
        (∃ g1 g2, w.gpts = some g1 ∧ p.gpts = some g2 ∧ g1 ≠ g2)) →
      multislice w p = .error ()) ∧
    (∀ we ce : Option ℚ,
      ((we = none ∧ ce = none) ∨ (∃ e1 e2, we = some e1 ∧ ce = some e2 ∧ e1 ≠ e2)) →
      apply_ctf_check we ce = .error ()) := by
  constructor
  · intro w p h
    rcases h with ⟨hw, hp⟩ | he | ⟨g1, g2, hw, hp, hne⟩
    · simp [multislice, hw, hp, grid_match, check_is_defined]
    · rcases hw : w.gpts with _ | g1 <;> rcases hp : p.gpts with _ | g2
      · simp [multislice, hw, hp, he, grid_match, check_is_defined]
      · simp [multislice, hw, hp, he, grid_match, check_is_defined]
      · simp [multislice, hw, hp, he, grid_match, check_is_defined]
      · by_cases hg : g1 = g2 <;>
          simp [multislice, hw, hp, he, hg, grid_match, check_is_defined]
    · simp [multislice, hw, hp, grid_match, hne, check_is_defined]
  · intro we ce h
    rcases h with ⟨hw, hc⟩ | ⟨e1, e2, hw, hc, hne⟩
    · simp [apply_ctf_check, hw, hc]
    · simp [apply_ctf_check, hw, hc, hne]

/-- Witness for C5: undefined grids and an energy mismatch both raise. -/
theorem multislice_fail_fast_witness :
    ((WavesM.mk none none 1).gpts = none ∧ (PotentialM.mk none [2, 3]).gpts = none) ∧
    multislice (WavesM.mk none none 1) (PotentialM.mk none [2, 3]) = .error () ∧
    apply_ctf_check (some 100) (some 200) = .error () :=
  ⟨⟨rfl, rfl⟩,
   multislice_fail_fast.1 (WavesM.mk none none 1) (PotentialM.mk none [2, 3])
     (Or.inl ⟨rfl, rfl⟩),
   multislice_fail_fast.2 (some 100) (some 200)
     (Or.inr ⟨100, 200, rfl, rfl, by with_unfolding_all decide⟩)⟩

theorem slice_limits_getElem (st : List ℚ) (k : ℕ) (hk : k < st.length) :
    (slice_limits st)[k]? = some ((st.take k).sum, (st.take (k + 1)).sum) := by
  unfold slice_limits
  rw [List.getElem?_map, List.getElem?_range hk]
  rfl

/-- C6 (counterexample).  The claim fails at the query of all slices: for one
slice of thickness 1, padding 0 and a single atom at `z = 1/2`, the query
`[0, 1)` should return that atom with cell depth 1, but
`slice_limits[last_slice]` is out of range and the call raises instead. -/
theorem windowed_selection_counterexample :
    get_atoms_in_slices [(1 : ℚ)] 0 [AtomZ.mk 1 (1/2)] 0 (some 1) none = none ∧
    get_atoms_in_slices [(1 : ℚ)] 0 [AtomZ.mk 1 (1/2)] 0 (some 1) none ≠
      some ([AtomZ.mk 1 (1/2)], 1) := by
  constructor
  · with_unfolding_all decide
  · with_unfolding_all decide

/-- C6 (amended).  Windowed slice selection: for every query
`[first_slice, last_slice)` with `last_slice < num_slices` (a query with
`last_slice = num_slices` raises an index error instead), the returned atoms
are exactly those with z in `[bin_start - z_padding, bin_end + z_padding)`
where `bin_start`/`bin_end` are the cumulative depths before `first_slice` and
before `last_slice`, and the returned cell depth is `bin_end - bin_start`. -/
theorem windowed_selection_amended (st : List ℚ) (pad : ℚ) (atoms : List AtomZ)
    (first last : ℕ) (h1 : first < st.length) (h2 : last < st.length) :
    get_atoms_in_slices st pad atoms first (some last) none =
      some (atoms.filter (fun q =>
          decide ((st.take first).sum - pad ≤ q.z) &&
          decide (q.z < (st.take last).sum + pad)),
        (st.take last).sum - (st.take first).sum) := by
  unfold get_atoms_in_slices
  simp only [Option.getD_some, slice_limits_getElem st first h1,
    slice_limits_getElem st last h2]
  simp

/-- Witness for C6 (amended) on thicknesses `[1, 1]`, padding `1/4`,
query `[0, 1)`. -/
theorem windowed_selection_amended_witness :
    (0 < 2 ∧ 1 < 2) ∧
    get_atoms_in_slices [(1 : ℚ), 1] (1/4) [AtomZ.mk 1 (3/2), AtomZ.mk 2 0] 0 (some 1)
        none =
      some ([AtomZ.mk 1 (3/2), AtomZ.mk 2 0].filter (fun q =>
          decide ((([(1 : ℚ), 1]).take 0).sum - 1/4 ≤ q.z) &&
          decide (q.z < (([(1 : ℚ), 1]).take 1).sum + 1/4)),
        (([(1 : ℚ), 1]).take 1).sum - (([(1 : ℚ), 1]).take 0).sum) :=
  ⟨⟨by decide, by decide⟩,
   windowed_selection_amended [(1 : ℚ), 1] (1/4) [AtomZ.mk 1 (3/2), AtomZ.mk 2 0] 0 1
     (by decide) (by decide)⟩

theorem countP_eq_one_in_range (m k : ℕ) (hk : k < m) :
    (List.range m).countP (fun l => decide (k = l)) = 1 := by
  induction m with
  | zero => omega
  | succ m ih =>
      rw [List.range_succ, List.countP_append]
      by_cases h : k < m
      · rw [ih h]
        have : (List.countP (fun l => decide (k = l)) [m]) = 0 := by
          rw [List.countP_eq_zero]
          intro a ha
          simp only [List.mem_singleton] at ha
          subst ha
          simp
          omega
        omega
      · have hk' : k = m := by omega
        subst hk'
        have h0 : (List.range k).countP (fun l => decide (k = l)) = 0 := by
          rw [List.countP_eq_zero]
          intro a ha
          rw [List.mem_range] at ha
          simp
          omega
        rw [h0]
        simp [List.countP_cons]

theorem sum_mem_cumsum (st : List ℚ) (hst : st ≠ []) : st.sum ∈ cumsum st := by
  unfold cumsum
  rw [List.mem_map]
  refine ⟨st.length - 1, ?_, ?_⟩
  · rw [List.mem_range]
    have := List.length_pos.mpr hst
    omega
  · have hlen : st.length - 1 + 1 = st.length := by
      have := List.length_pos.mpr hst
      omega
    rw [hlen, List.take_length]

theorem digitize_lt_of_lt_sum (st : List ℚ) (hst : st ≠ []) (z : ℚ) (hz : z < st.sum) :
    digitize z (cumsum st) < st.length := by
  have hclen : (cumsum st).length = st.length := by
    unfold cumsum
    simp
  unfold digitize
  by_contra h
  have hle : ((cumsum st).filter (fun b => decide (b ≤ z))).length ≤ (cumsum st).length :=
    List.length_filter_le _ _
  have heq : ((cumsum st).filter (fun b => decide (b ≤ z))).length = (cumsum st).length := by
    omega
  have hself : (cumsum st).filter (fun b => decide (b ≤ z)) = cumsum st :=
    (List.filter_sublist _).eq_of_length heq
  have hall := List.filter_eq_self.mp hself
  have hmem := sum_mem_cumsum st hst
  have := hall _ hmem
  simp at this
  linarith

/-- C7 (counterexample).  The claim fails for an atom exactly at the top of
the cell: with one slice of thickness 1 and one atom at `z = 1`, the atom is
digitized past the last bin and dropped, so atom index 0 appears in no
slice's index list. -/
theorem slice_index_partition_counterexample :
    slice_index [(1 : ℚ)] [AtomZ.mk 1 1] = [[]] ∧
    (slice_index [(1 : ℚ)] [AtomZ.mk 1 1]).countP (fun l => decide (0 ∈ l)) = 0 := by
  constructor
  · with_unfolding_all decide
  · with_unfolding_all decide

/-- C7 (amended).  Atom partition invariant of `SliceIndexedAtoms`: provided
every atom's z-coordinate is strictly below the total depth (atoms at or
beyond it are dropped from every bin), each atom index appears in exactly one
slice's index list (the per-slice lists are pairwise disjoint with full
union). -/
theorem slice_index_partition_amended (st : List ℚ) (atoms : List AtomZ)
    (hst : st ≠ []) (hz : ∀ q ∈ atoms, q.z < st.sum) :
    ∀ i < atoms.length,
      (slice_index st atoms).countP (fun l => decide (i ∈ l)) = 1 := by
  intro i hi
  unfold slice_index label_to_index
  rw [List.countP_map]
  set labels := atoms.map (fun q => digitize q.z (cumsum st)) with hlabels
  have hilab : labels[i]? = some (digitize (atoms[i].z) (cumsum st)) := by
    rw [hlabels, List.getElem?_map, List.getElem?_eq_getElem hi]
    rfl
  set lab := digitize (atoms[i].z) (cumsum st) with hlab
  have hlen : labels.length = atoms.length := by
    rw [hlabels]
    simp
  have hcongr : ∀ l ∈ List.range (st.length - 1 + 1),
      ((fun l => decide (i ∈ l)) ∘
        (fun l => (List.range labels.length).filter (fun k => decide (labels[k]? = some l)))) l
        = true ↔ (fun l => decide (lab = l)) l = true := by
    intro l _
    simp only [Function.comp_apply, decide_eq_true_eq]
    rw [List.mem_filter, List.mem_range, hlen]
    constructor
    · rintro ⟨_, hf⟩
      rw [hilab] at hf
      simp only [decide_eq_true_eq, Option.some.injEq] at hf
      exact hf
    · intro hf
      refine ⟨hi, ?_⟩
      rw [hilab]
      simp only [decide_eq_true_eq, Option.some.injEq]
      exact hf
  rw [List.countP_congr hcongr]
  apply countP_eq_one_in_range
  have hpos := List.length_pos.mpr hst
  have := digitize_lt_of_lt_sum st hst (atoms[i].z) (hz _ (List.getElem_mem hi))
  omega

/-- Witness for C7 (amended): two slices of thickness 1, atoms at `z = 1/2`
and `z = 3/2`, both strictly inside. -/
theorem slice_index_partition_amended_witness :
    (([(1 : ℚ), 1] : List ℚ) ≠ [] ∧
      ∀ q ∈ [AtomZ.mk 1 (1/2), AtomZ.mk 2 (3/2)], q.z < ([(1 : ℚ), 1]).sum) ∧
    (0 < 2 →
      (slice_index [(1 : ℚ), 1] [AtomZ.mk 1 (1/2), AtomZ.mk 2 (3/2)]).countP
        (fun l => decide (0 ∈ l)) = 1) :=
  ⟨⟨by with_unfolding_all decide, by with_unfolding_all decide⟩,
   fun _ => slice_index_partition_amended [(1 : ℚ), 1]
     [AtomZ.mk 1 (1/2), AtomZ.mk 2 (3/2)]
     (by with_unfolding_all decide) (by with_unfolding_all decide) 0
     (by decide)⟩

theorem npIndexShape_suffix (items : List Item) :
    ∀ (shape ns : List ℕ), npIndexShape shape items = some ns →
      ns.length + items.countP Item.isIdx = shape.length ∧
      ns.drop (items.length - items.countP Item.isIdx) = shape.drop items.length := by
  induction items with
  | nil =>
      intro shape ns h
      simp only [npIndexShape, Option.some.injEq] at h
      subst h
      simp
  | cons it its ih =>
      intro shape ns h
      cases shape with
      | nil => simp [npIndexShape] at h
      | cons n rest =>
          cases it with
          | idx i =>
              simp only [npIndexShape] at h
              rcases hr : resolveIdx n i with _ | k
              · rw [hr] at h
                exact absurd h (by simp)
              · rw [hr] at h
                obtain ⟨hlen, hdrop⟩ := ih rest ns h
                have hcnt : (Item.idx i :: its).countP Item.isIdx
                    = its.countP Item.isIdx + 1 := by
                  rw [List.countP_cons]
                  rfl
                have hc : its.countP Item.isIdx ≤ its.length := List.countP_le_length _
                constructor
                · rw [hcnt, List.length_cons]
                  omega
                · rw [hcnt, List.length_cons]
                  have harith : its.length + 1 - (its.countP Item.isIdx + 1)
                      = its.length - its.countP Item.isIdx := by omega
                  rw [harith, hdrop]
                  rfl
          | slc a b =>
              simp only [npIndexShape] at h
              rcases hr : npIndexShape rest its with _ | s
              · rw [hr] at h
                exact absurd h (by simp)
              · rw [hr] at h
                have hns : sliceLen n a b :: s = ns := by simpa using h
                subst hns
                obtain ⟨hlen, hdrop⟩ := ih rest s hr
                have hcnt : (Item.slc a b :: its).countP Item.isIdx
                    = its.countP Item.isIdx := by
                  rw [List.countP_cons]
                  rfl
                have hc : its.countP Item.isIdx ≤ its.length := List.countP_le_length _
                constructor
                · rw [hcnt, List.length_cons, List.length_cons]
                  omega
                · rw [hcnt, List.length_cons]
                  have harith : its.length + 1 - its.countP Item.isIdx
                      = (its.length - its.countP Item.isIdx) + 1 := by omega
                  rw [harith]
                  simp only [List.drop_succ_cons]
                  rw [hdrop]

/-- C8.  Base axes cannot be indexed: an index tuple with more items than
ensemble axes makes `get_items` (hence `__getitem__`) raise `RuntimeError`
(for any `keep_dims`); an index tuple confined to the ensemble axes (with
in-range integers) succeeds, preserves `base_dims`, and leaves the base shape
untouched — no indexing ever reaches a base axis. -/
theorem get_items_base_axes (o : ArrObj) (items : List Item)
    (hinv : o.shape.length = o.ensAxes.length + o.baseDims) :
    (∀ (kd : Bool) (its : List Item), (ArrObj.ensemble_shape o).length < its.length →
      get_items o its kd = .error .runtime) ∧
    (∀ ns : List ℕ, items.length ≤ (ArrObj.ensemble_shape o).length →
      npIndexShape o.shape items = some ns →
      ∃ r, get_items o items false = .ok r ∧
        r.baseDims = o.baseDims ∧ ArrObj.base_shape r = ArrObj.base_shape o) := by
  have henslen : (ArrObj.ensemble_shape o).length = o.shape.length - o.baseDims := by
    unfold ArrObj.ensemble_shape
    rw [List.length_take]
    omega
  have hkdlen : ∀ (kd : Bool) (l : List Item), (keepDimsItems kd l).length = l.length := by
    intro kd l
    cases kd <;> simp [keepDimsItems]
  have hkdfalse : ∀ l : List Item, keepDimsItems false l = l := fun _ => rfl
  constructor
  · intro kd its hlt
    unfold get_items
    rw [if_pos (by rw [hkdlen]; exact hlt)]
  · intro ns hle hnp
    have hbasefalse : o.is_base_axis ((List.range items.length).filter
        (fun i => ((items[i]?).map Item.isIdx).getD false)) = false := by
      unfold ArrObj.is_base_axis
      rw [List.any_eq_false]
      intro a ha
      rw [List.mem_filter, List.mem_range] at ha
      simp only [decide_eq_true_eq]
      omega
    unfold get_items
    simp only [hkdfalse]
    rw [if_neg (not_lt.mpr hle), hbasefalse]
    simp only [Bool.false_eq_true, if_false, hnp]
    refine ⟨_, rfl, rfl, ?_⟩
    obtain ⟨hlen2, hdrop⟩ := npIndexShape_suffix items o.shape ns hnp
    have hc : items.countP Item.isIdx ≤ items.length := List.countP_le_length _
    show ns.drop (ns.length - o.baseDims) = o.shape.drop (o.shape.length - o.baseDims)
    have harith1 : ns.length - o.baseDims =
        (items.length - items.countP Item.isIdx) +
          (ns.length - o.baseDims - (items.length - items.countP Item.isIdx)) := by
      omega
    rw [harith1, ← List.drop_drop, hdrop, List.drop_drop]
    congr 1
    omega

/-- Witness for C8 on shape `[2, 3]` with one ensemble axis: two items raise,
one integer item succeeds and keeps the base shape `[3]`. -/
theorem get_items_base_axes_witness :
    ((ArrObj.mk [2, 3] 1 [AxisM.plain false]).shape.length =
        (ArrObj.mk [2, 3] 1 [AxisM.plain false]).ensAxes.length +
          (ArrObj.mk [2, 3] 1 [AxisM.plain false]).baseDims ∧
      (ArrObj.ensemble_shape (ArrObj.mk [2, 3] 1 [AxisM.plain false])).length < 2 ∧
      1 ≤ (ArrObj.ensemble_shape (ArrObj.mk [2, 3] 1 [AxisM.plain false])).length ∧
      npIndexShape [2, 3] [Item.idx 0] = some [3]) ∧
    get_items (ArrObj.mk [2, 3] 1 [AxisM.plain false]) [Item.idx 0, Item.idx 0] false
      = .error .runtime ∧
    (∃ r, get_items (ArrObj.mk [2, 3] 1 [AxisM.plain false]) [Item.idx 0] false = .ok r ∧
      r.baseDims = 1 ∧
      ArrObj.base_shape r = ArrObj.base_shape (ArrObj.mk [2, 3] 1 [AxisM.plain false])) :=
  ⟨⟨by decide, by decide, by decide, by decide⟩,
   (get_items_base_axes (ArrObj.mk [2, 3] 1 [AxisM.plain false]) [Item.idx 0]
      (by decide)).1 false [Item.idx 0, Item.idx 0] (by decide),
   (get_items_base_axes (ArrObj.mk [2, 3] 1 [AxisM.plain false]) [Item.idx 0]
      (by decide)).2 [3] (by decide) (by decide)⟩

theorem mem_condPositionsFrom {α : Type} (cond : ℕ → α → Bool) :
    ∀ (l : List α) (n i : ℕ),
      i ∈ condPositionsFrom cond n l ↔
        (n ≤ i ∧ ∃ a, l[i - n]? = some a ∧ cond i a = true) := by
  intro l
  induction l with
  | nil =>
      intro n i
      simp [condPositionsFrom]
  | cons a l ih =>
      intro n i
      unfold condPositionsFrom
      by_cases hc : cond n a
      · rw [if_pos hc]
        constructor
        · intro hmem
          rcases List.mem_cons.mp hmem with rfl | hmem'
          · exact ⟨le_refl _, a, by simp, hc⟩
          · obtain ⟨hle, b, hb, hcb⟩ := (ih (n + 1) i).mp hmem'
            refine ⟨by omega, b, ?_, hcb⟩
            obtain ⟨k, hk⟩ : ∃ k, i - n = k + 1 := ⟨i - n - 1, by omega⟩
            rw [hk, List.getElem?_cons_succ]
            have hik : i - (n + 1) = k := by omega
            rw [← hik]
            exact hb
        · rintro ⟨hle, b, hb, hcb⟩
          by_cases hin : i = n
          · subst hin
            exact List.mem_cons_self _ _
          · apply List.mem_cons_of_mem
            apply (ih (n + 1) i).mpr
            refine ⟨by omega, b, ?_, hcb⟩
            obtain ⟨k, hk⟩ : ∃ k, i - n = k + 1 := ⟨i - n - 1, by omega⟩
            rw [hk, List.getElem?_cons_succ] at hb
            have hik : i - (n + 1) = k := by omega
            rw [hik]
            exact hb
      · rw [if_neg hc]
        constructor
        · intro hmem
          obtain ⟨hle, b, hb, hcb⟩ := (ih (n + 1) i).mp hmem
          refine ⟨by omega, b, ?_, hcb⟩
          obtain ⟨k, hk⟩ : ∃ k, i - n = k + 1 := ⟨i - n - 1, by omega⟩
          rw [hk, List.getElem?_cons_succ]
          have hik : i - (n + 1) = k := by omega
          rw [← hik]
          exact hb
        · rintro ⟨hle, b, hb, hcb⟩
          by_cases hin : i = n
          · subst hin
            rw [Nat.sub_self, List.getElem?_cons_zero] at hb
            have hba : a = b := by simpa using hb
            subst hba
            exact absurd hcb (by simpa using hc)
          · apply (ih (n + 1) i).mpr
            refine ⟨by omega, b, ?_, hcb⟩
            obtain ⟨k, hk⟩ : ∃ k, i - n = k + 1 := ⟨i - n - 1, by omega⟩
            rw [hk, List.getElem?_cons_succ] at hb
            have hik : i - (n + 1) = k := by omega
            rw [hik]
            exact hb

theorem posFilterFrom_append {α : Type} (keep : ℕ → Bool) :
    ∀ (l r : List α) (n : ℕ),
      posFilterFrom keep n (l ++ r) =
        posFilterFrom keep n l ++ posFilterFrom keep (n + l.length) r := by
  intro l
  induction l with
  | nil =>
      intro r n
      simp [posFilterFrom]
  | cons a l ih =>
      intro r n
      simp only [List.cons_append, posFilterFrom, List.append_eq]
      have harith : n + (a :: l).length = n + 1 + l.length := by
        simp only [List.length_cons]
        omega
      rw [harith]
      by_cases hk : keep n
      · rw [if_pos hk, if_pos hk, List.cons_append, ih]
      · rw [if_neg hk, if_neg hk, ih]

theorem posFilterFrom_all {α : Type} (keep : ℕ → Bool) :
    ∀ (l : List α) (n : ℕ), (∀ m, n ≤ m → keep m = true) →
      posFilterFrom keep n l = l := by
  intro l
  induction l with
  | nil =>
      intro n _
      rfl
  | cons a l ih =>
      intro n h
      unfold posFilterFrom
      rw [if_pos (h n (le_refl n)), ih (n + 1) (fun m hm => h m (by omega))]

theorem normalize_axes_ofNat (ax : List ℕ) (rank : ℕ) :
    normalize_axes (ax.map (fun n : ℕ => (n : ℤ))) rank = ax := by
  unfold normalize_axes
  rw [List.map_map]
  have h : ∀ a ∈ ax,
      ((fun a : ℤ => (if a < 0 then a + (rank : ℤ) else a).toNat) ∘ (fun n : ℕ => (n : ℤ))) a
        = id a := by
    intro a _
    simp only [Function.comp_apply, id_eq]
    rw [if_neg (by omega)]
    omega
  rw [List.map_congr_left h, List.map_id]

theorem squeeze_spec (o : ArrObj) (ax : List ℕ)
    (hinv : o.shape.length = o.ensAxes.length + o.baseDims) (hbd : 0 < o.baseDims) :
    (squeeze o (some (ax.map (fun n : ℕ => (n : ℤ))))).shape =
      posFilterFrom (fun i => !(decide ((ArrObj.ensemble_shape o)[i]? = some 1) &&
        decide (i ∈ ax))) 0 (ArrObj.ensemble_shape o) ++ ArrObj.base_shape o ∧
    (squeeze o (some (ax.map (fun n : ℕ => (n : ℤ))))).ensAxes =
      posFilterFrom (fun i => !(decide ((ArrObj.ensemble_shape o)[i]? = some 1) &&
        decide (i ∈ ax))) 0 o.ensAxes ∧
    (squeeze o (some (ax.map (fun n : ℕ => (n : ℤ))))).baseDims = o.baseDims := by
  have hbdle : o.baseDims ≤ o.shape.length := by omega
  have hblen : (ArrObj.base_shape o).length = o.baseDims := by
    unfold ArrObj.base_shape
    rw [List.length_drop]
    omega
  have hguard : ¬ (o.shape.length < (ArrObj.base_shape o).length) := by omega
  have hpd : pyDropLast o.shape (ArrObj.base_shape o).length = ArrObj.ensemble_shape o := by
    unfold pyDropLast ArrObj.ensemble_shape
    rw [if_neg (by omega), hblen]
  have henslen : (ArrObj.ensemble_shape o).length = o.shape.length - o.baseDims := by
    unfold ArrObj.ensemble_shape
    rw [List.length_take]
    omega
  have hkeep : (fun i => decide (i ∉ condPositionsFrom
        (fun i n => decide (n = 1) && decide (i ∈ ax)) 0 (ArrObj.ensemble_shape o))) =
      (fun i => !(decide ((ArrObj.ensemble_shape o)[i]? = some 1) && decide (i ∈ ax))) := by
    funext i
    have hmem : i ∈ condPositionsFrom
        (fun i n => decide (n = 1) && decide (i ∈ ax)) 0 (ArrObj.ensemble_shape o) ↔
        ((ArrObj.ensemble_shape o)[i]? = some 1 ∧ i ∈ ax) := by
      rw [mem_condPositionsFrom]
      constructor
      · rintro ⟨-, a, ha, hca⟩
        rw [Nat.sub_zero] at ha
        simp only [Bool.and_eq_true, decide_eq_true_eq] at hca
        rw [ha, hca.1]
        exact ⟨rfl, hca.2⟩
      · rintro ⟨h1, h2⟩
        refine ⟨Nat.zero_le _, 1, ?_, ?_⟩
        · rw [Nat.sub_zero]
          exact h1
        · simp [h2]
    by_cases h1 : (ArrObj.ensemble_shape o)[i]? = some 1 <;>
      by_cases h2 : i ∈ ax <;> simp [hmem, h1, h2]
  have hsplit : o.shape = ArrObj.ensemble_shape o ++ ArrObj.base_shape o :=
    (List.take_append_drop _ _).symm
  have hkeepbig : ∀ m, (ArrObj.ensemble_shape o).length ≤ m →
      (fun i => !(decide ((ArrObj.ensemble_shape o)[i]? = some 1) && decide (i ∈ ax))) m
        = true := by
    intro m hm
    have hnone : (ArrObj.ensemble_shape o)[m]? = none := List.getElem?_eq_none hm
    simp [hnone]
  unfold squeeze
  rw [if_neg hguard]
  dsimp only
  rw [normalize_axes_ofNat, hpd]
  refine ⟨?_, ?_, rfl⟩
  · show posFilterFrom _ 0 o.shape = _
    rw [hkeep]
    conv_lhs => rw [hsplit]
    rw [posFilterFrom_append, Nat.zero_add,
      posFilterFrom_all _ _ _ hkeepbig]
  · show posFilterFrom _ 0 o.ensAxes = _
    rw [hkeep]

/-- C9 (counterexample).  The claim fails on the code: squeezing an object
with one size-1 ensemble axis whose metadata is NOT squeeze-eligible
(`_squeeze = False`) removes that axis anyway — `HasArray.squeeze` never
consults the metadata eligibility flag. -/
theorem squeeze_restriction_counterexample :
    squeeze (ArrObj.mk [1, 2] 1 [AxisM.plain false]) none = ArrObj.mk [2] 1 [] ∧
    squeeze (ArrObj.mk [1, 2] 1 [AxisM.plain false]) none ≠
      ArrObj.mk [1, 2] 1 [AxisM.plain false] := by
  constructor
  · decide
  · decide

/-- C9 (amended).  `squeeze` removes exactly the requested ensemble axes of
size 1 — regardless of their metadata's squeeze-eligibility flag, which
`squeeze` itself never checks; eligibility filtering happens only in the
caller `_reduce_ensemble`, which requests exactly the squeeze-eligible axes,
so `_reduce_ensemble` removes exactly the size-1 squeeze-eligible ensemble
axes.  Base axes and axes of size greater than 1 are never removed, and the
removed axes' metadata entries are dropped correspondingly. -/
theorem squeeze_restriction_amended (o : ArrObj) (ax : List ℕ)
    (hinv : o.shape.length = o.ensAxes.length + o.baseDims) (hbd : 0 < o.baseDims) :
    (squeeze o (some (ax.map (fun n : ℕ => (n : ℤ))))).shape =
      posFilterFrom (fun i => !(decide ((ArrObj.ensemble_shape o)[i]? = some 1) &&
        decide (i ∈ ax))) 0 (ArrObj.ensemble_shape o) ++ ArrObj.base_shape o ∧
    (squeeze o (some (ax.map (fun n : ℕ => (n : ℤ))))).ensAxes =
      posFilterFrom (fun i => !(decide ((ArrObj.ensemble_shape o)[i]? = some 1) &&
        decide (i ∈ ax))) 0 o.ensAxes ∧
    (squeeze o (some (ax.map (fun n : ℕ => (n : ℤ))))).baseDims = o.baseDims ∧
    (reduce_ensemble o).shape =
      posFilterFrom (fun i => !(decide ((ArrObj.ensemble_shape o)[i]? = some 1) &&
        ((o.ensAxes[i]?).map AxisM.squeezeFlag).getD false)) 0 (ArrObj.ensemble_shape o)
        ++ ArrObj.base_shape o := by
  obtain ⟨h1, h2, h3⟩ := squeeze_spec o ax hinv hbd
  refine ⟨h1, h2, h3, ?_⟩
  unfold reduce_ensemble
  obtain ⟨h1', -, -⟩ :=
    squeeze_spec o (condPositionsFrom (fun _ m => m.squeezeFlag) 0 o.ensAxes) hinv hbd
  rw [h1']
  congr 1
  have hpred : (fun i => !(decide ((ArrObj.ensemble_shape o)[i]? = some 1) &&
      decide (i ∈ condPositionsFrom (fun _ m => m.squeezeFlag) 0 o.ensAxes))) =
      (fun i => !(decide ((ArrObj.ensemble_shape o)[i]? = some 1) &&
        ((o.ensAxes[i]?).map AxisM.squeezeFlag).getD false)) := by
    funext i
    have hmem : i ∈ condPositionsFrom (fun _ m => m.squeezeFlag) 0 o.ensAxes ↔
        ∃ a, o.ensAxes[i]? = some a ∧ a.squeezeFlag = true := by
      rw [mem_condPositionsFrom]
      constructor
      · rintro ⟨-, a, ha, hf⟩
        rw [Nat.sub_zero] at ha
        exact ⟨a, ha, hf⟩
      · rintro ⟨a, ha, hf⟩
        refine ⟨Nat.zero_le _, a, ?_, hf⟩
        rw [Nat.sub_zero]
        exact ha
    rcases hA : o.ensAxes[i]? with _ | m
    · rw [hA] at hmem
      have hnot : ¬ (i ∈ condPositionsFrom (fun _ m => m.squeezeFlag) 0 o.ensAxes) := by
        rw [hmem]
        rintro ⟨a, ha, -⟩
        exact absurd ha (by simp)
      simp [hA, hnot]
    · rw [hA] at hmem
      cases hflag : m.squeezeFlag
      · have hnot : ¬ (i ∈ condPositionsFrom (fun _ m => m.squeezeFlag) 0 o.ensAxes) := by
          rw [hmem]
          rintro ⟨a, ha, hf⟩
          have hma : m = a := by simpa using ha
          subst hma
          rw [hflag] at hf
          exact absurd hf (by simp)
        simp [hA, hnot, hflag]
      · have hyes : i ∈ condPositionsFrom (fun _ m => m.squeezeFlag) 0 o.ensAxes :=
          hmem.mpr ⟨m, rfl, hflag⟩
        simp [hA, hyes, hflag]
  rw [hpred]

/-- Witness for C9 (amended): shape `[1, 2, 3]`, one eligible size-1 ordinal
axis and one non-eligible size-2 axis, requesting axes `[0, 1]`. -/
theorem squeeze_restriction_amended_witness :
    ((ArrObj.mk [1, 2, 3] 1 [AxisM.ordinal [5] true, AxisM.plain false]).shape.length =
        (ArrObj.mk [1, 2, 3] 1 [AxisM.ordinal [5] true, AxisM.plain false]).ensAxes.length +
        (ArrObj.mk [1, 2, 3] 1 [AxisM.ordinal [5] true, AxisM.plain false]).baseDims ∧
      0 < (ArrObj.mk [1, 2, 3] 1 [AxisM.ordinal [5] true, AxisM.plain false]).baseDims) ∧
    (squeeze (ArrObj.mk [1, 2, 3] 1 [AxisM.ordinal [5] true, AxisM.plain false])
        (some (([0, 1] : List ℕ).map (fun n : ℕ => (n : ℤ))))).shape =
      posFilterFrom (fun i =>
        !(decide ((ArrObj.ensemble_shape
            (ArrObj.mk [1, 2, 3] 1 [AxisM.ordinal [5] true, AxisM.plain false]))[i]?
              = some 1) &&
          decide (i ∈ ([0, 1] : List ℕ)))) 0
        (ArrObj.ensemble_shape
          (ArrObj.mk [1, 2, 3] 1 [AxisM.ordinal [5] true, AxisM.plain false])) ++
      ArrObj.base_shape (ArrObj.mk [1, 2, 3] 1 [AxisM.ordinal [5] true, AxisM.plain false]) :=
  ⟨⟨by decide, by decide⟩,
   (squeeze_restriction_amended
      (ArrObj.mk [1, 2, 3] 1 [AxisM.ordinal [5] true, AxisM.plain false]) [0, 1]
      (by decide) (by decide)).1⟩

theorem mem_insertSorted (n a : ℕ) : ∀ l : List ℕ, a ∈ insertSorted n l ↔ a = n ∨ a ∈ l := by
  intro l
  induction l with
  | nil => simp [insertSorted]
  | cons m l ih =>
      unfold insertSorted
      by_cases h : n ≤ m
      · rw [if_pos h]
        simp
      · rw [if_neg h]
        rw [List.mem_cons, ih, List.mem_cons]
        tauto

theorem mem_sortNat (a : ℕ) : ∀ l : List ℕ, a ∈ sortNat l ↔ a ∈ l := by
  intro l
  induction l with
  | nil => simp [sortNat]
  | cons n l ih =>
      unfold sortNat
      rw [mem_insertSorted, ih, List.mem_cons]

theorem const_dedup (n : ℕ) : ∀ l : List ℕ, l ≠ [] → (∀ x ∈ l, x = n) → l.dedup = [n] := by
  intro l
  induction l with
  | nil => intro h; exact absurd rfl h
  | cons a l ih =>
      intro _ hall
      have ha : a = n := hall a (List.mem_cons_self _ _)
      subst ha
      cases l with
      | nil => simp
      | cons b l =>
          have hb : b = a := hall b (by simp)
          subst hb
          rw [List.dedup_cons_of_mem (List.mem_cons_self b l)]
          exact ih (by simp) (fun x hx => hall x (List.mem_cons_of_mem _ hx))

theorem uniqueNumbers_filter_eq (n : ℕ) (atoms : List Atom2)
    (hn : n ∈ uniqueNumbers atoms) :
    (atoms.filter (fun q => decide (q.number = n))) ≠ [] ∧
    uniqueNumbers (atoms.filter (fun q => decide (q.number = n))) = [n] := by
  have hmem : n ∈ (atoms.map (fun q => q.number)) := by
    have h1 := (mem_sortNat n _).mp hn
    exact List.mem_dedup.mp h1
  obtain ⟨q, hq, hqn⟩ := List.mem_map.mp hmem
  have hqf : q ∈ atoms.filter (fun q => decide (q.number = n)) := by
    rw [List.mem_filter]
    exact ⟨hq, by simp [hqn]⟩
  have hne : (atoms.filter (fun q => decide (q.number = n))) ≠ [] := by
    intro h
    rw [h] at hqf
    exact absurd hqf (List.not_mem_nil _)
  refine ⟨hne, ?_⟩
  unfold uniqueNumbers
  have hconst : ∀ x ∈ (atoms.filter (fun q => decide (q.number = n))).map
      (fun q => q.number), x = n := by
    intro x hx
    obtain ⟨p, hp, hpx⟩ := List.mem_map.mp hx
    have := (List.mem_filter.mp hp).2
    simp only [decide_eq_true_eq] at this
    rw [← hpx]
    exact this
  have hmapne : (atoms.filter (fun q => decide (q.number = n))).map
      (fun q => q.number) ≠ [] := by
    intro h
    rw [List.map_eq_nil_iff] at h
    exact hne h
  rw [const_dedup n _ hmapne hconst]
  rfl

theorem additive_sum (f : CGrid → CGrid)
    (hadd : ∀ a b : CGrid, f (a + b) = f a + f b) (hzero : f 0 = 0) :
    ∀ L : List CGrid, f L.sum = (L.map f).sum := by
  intro L
  induction L with
  | nil => simpa using hzero
  | cons a L ih =>
      rw [List.sum_cons, hadd, ih, List.map_cons, List.sum_cons]

theorem gridRe_add (a b : CGrid) : gridRe (a + b) = gridRe a + gridRe b := rfl

theorem gridRe_sum : ∀ L : List CGrid, gridRe L.sum = (L.map gridRe).sum := by
  intro L
  induction L with
  | nil => rfl
  | cons a L ih =>
      rw [List.sum_cons, gridRe_add, ih, List.map_cons, List.sum_cons]

theorem foldl_guard_sum {β : Type} [AddCommMonoid β] (c : ℕ → Bool) (g : ℕ → β) :
    ∀ (l : List ℕ) (acc : β),
      l.foldl (fun acc n => if c n then acc else acc + g n) acc
        = acc + ((l.filter (fun n => !c n)).map g).sum := by
  intro l
  induction l with
  | nil =>
      intro acc
      simp
  | cons n l ih =>
      intro acc
      rw [List.foldl_cons, List.filter_cons]
      by_cases hc : c n
      · rw [if_pos hc, ih]
        simp [hc]
      · rw [if_neg hc, ih]
        simp only [hc, Bool.not_false, if_pos, List.map_cons, List.sum_cons]
        rw [add_assoc]

/-- C3.  Multi-species projection equivalence: with more than one distinct
atomic number, `infinite_potential_projections` builds one scatter-add density
map per species, transforms each, multiplies by that species' kernel,
accumulates in Fourier space, and inverse-transforms the sum once; for every
additive inverse transform the result equals the sum over species of the
single-species path (density map convolved with that species' kernel) run on
each species' atoms separately. -/
theorem infinite_projections_multi_species (fft2 ifft2 : CGrid → CGrid)
    (hadd : ∀ a b : CGrid, ifft2 (a + b) = ifft2 a + ifft2 b)
    (hzero : ifft2 0 = 0)
    (s0 s1 : ℕ) (sampling : ℚ × ℚ) (factors : ℕ → CGrid) (atoms : List Atom2)
    (hmulti : 1 < (uniqueNumbers atoms).length) :
    infinite_potential_projections fft2 ifft2 s0 s1 sampling factors atoms =
      ((uniqueNumbers atoms).map (fun n =>
        infinite_potential_projections fft2 ifft2 s0 s1 sampling factors
          (atoms.filter (fun q => decide (q.number = n))))).sum := by
  have hne : atoms ≠ [] := by
    intro h
    subst h
    simp [uniqueNumbers, sortNat] at hmulti
  have hformula : ∀ n ∈ uniqueNumbers atoms,
      infinite_potential_projections fft2 ifft2 s0 s1 sampling factors
        (atoms.filter (fun q => decide (q.number = n)))
      = gridRe (ifft2 (speciesTerm fft2 s0 s1 sampling factors atoms n)) := by
    intro n hn
    obtain ⟨hfil, hu⟩ := uniqueNumbers_filter_eq n atoms hn
    unfold infinite_potential_projections
    rw [if_neg (by simpa using hfil)]
    dsimp only
    rw [hu]
    rw [if_neg (by norm_num)]
    unfold fft2_convolve speciesTerm
    rfl
  have hfilter_all : (uniqueNumbers atoms).filter
      (fun n => !((atoms.filter (fun q => decide (q.number = n))).isEmpty)) =
      uniqueNumbers atoms := by
    rw [List.filter_eq_self]
    intro n hn
    obtain ⟨hfil, -⟩ := uniqueNumbers_filter_eq n atoms hn
    simpa using hfil
  rw [List.map_congr_left hformula]
  unfold infinite_potential_projections
  rw [if_neg (by simpa using hne)]
  dsimp only
  rw [if_pos hmulti]
  rw [foldl_guard_sum
    (fun n => (atoms.filter (fun q => decide (q.number = n))).isEmpty)
    (speciesTerm fft2 s0 s1 sampling factors atoms) (uniqueNumbers atoms) 0]
  rw [hfilter_all, zero_add]
  rw [additive_sum ifft2 hadd hzero, gridRe_sum]
  rw [List.map_map, List.map_map]
  rfl

/-- Witness for C3: the identity as (trivially additive) transform, two
species on a `1 × 1` grid. -/
theorem infinite_projections_multi_species_witness :
    ((∀ a b : CGrid, (id : CGrid → CGrid) (a + b) = id a + id b) ∧
      (id : CGrid → CGrid) 0 = 0 ∧
      1 < (uniqueNumbers [Atom2.mk 1 0 0, Atom2.mk 2 0 0]).length) ∧
    infinite_potential_projections id id 1 1 (1, 1) (fun _ _ _ => Cq.mk 1 0)
        [Atom2.mk 1 0 0, Atom2.mk 2 0 0] =
      ((uniqueNumbers [Atom2.mk 1 0 0, Atom2.mk 2 0 0]).map (fun n =>
        infinite_potential_projections id id 1 1 (1, 1) (fun _ _ _ => Cq.mk 1 0)
          ([Atom2.mk 1 0 0, Atom2.mk 2 0 0].filter (fun q => decide (q.number = n))))).sum :=
  ⟨⟨fun _ _ => rfl, rfl, by with_unfolding_all decide⟩,
   infinite_projections_multi_species id id (fun _ _ => rfl) rfl 1 1 (1, 1)
     (fun _ _ _ => Cq.mk 1 0) [Atom2.mk 1 0 0, Atom2.mk 2 0 0]
     (by with_unfolding_all decide)⟩

end AbTEM
